import Mathlib

/-!
Verification of the Julia set renderer `src/julia_set.c`.

The C program computes with `float`; this development embeds its arithmetic with
exact rationals (ℚ), the idealization the program's own documentation uses.
Integer quantities (`int` dimensions and indices) are embedded as ℤ where C
subtraction may go negative, and as ℕ for loop counters and buffer indices.
-/

namespace Julia

/-- Escape-time loop of `julia_point` (src/julia_set.c, lines 198-212):
`t = ar*ar - ai*ai + cr; ai = ar*ai + ai*ar + ci; ar = t`, then test
`1000 < ar*ar + ai*ai` and return 0 on escape.  The first argument of the
recursion counts the remaining iterations (200 at the top call); the loop
returns 1 when every iteration completes. -/
def juliaLoop (cr ci : ℚ) : ℕ → ℚ → ℚ → ℕ
  | 0, _, _ => 1
  | n + 1, ar, ai =>
    let t := ar * ar - ai * ai + cr
    let ai2 := ar * ai + ai * ar + ci
    if 1000 < t * t + ai2 * ai2 then 0 else juliaLoop cr ci n t ai2

/-- The same loop, instrumented with the 1-based index of the iteration at which
the threshold test first succeeds (`none` when the loop runs to completion). -/
def escapeIn (cr ci : ℚ) : ℕ → ℚ → ℚ → Option ℕ
  | 0, _, _ => none
  | n + 1, ar, ai =>
    let t := ar * ar - ai * ai + cr
    let ai2 := ar * ai + ai * ar + ci
    if 1000 < t * t + ai2 * ai2 then some 1 else (escapeIn cr ci n t ai2).map (· + 1)

/-- Pixel-to-plane map for the x axis, line 186 of the source:
`x = ((w-i-1)*xl + i*xr) / (w-1)`. -/
def xmap (w : ℤ) (xl xr : ℚ) (i : ℤ) : ℚ :=
  (((w - i - 1 : ℤ) : ℚ) * xl + (i : ℚ) * xr) / ((w - 1 : ℤ) : ℚ)

/-- Pixel-to-plane map for the y axis, line 188 of the source:
`y = ((h-j-1)*yb + j*yt) / (h-1)`. -/
def ymap (h : ℤ) (yb yt : ℚ) (j : ℤ) : ℚ :=
  (((h - j - 1 : ℤ) : ℚ) * yb + (j : ℚ) * yt) / ((h - 1 : ℤ) : ℚ)

/-- `julia_point` (src/julia_set.c, lines 144-213): maps pixel `(i, j)` into the
plane and runs up to 200 iterations of `a ← a² + c` with `c = -0.8 + 0.156i`,
returning 1 for "in set" and 0 for "escaped". -/
def julia_point (w h : ℤ) (xl xr yb yt : ℚ) (i j : ℤ) : ℕ :=
  juliaLoop (-0.8) 0.156 200 (xmap w xl xr i) (ymap h yb yt j)

/-- Instrumented variant of `julia_point` recording the 1-based iteration index
at which the loop returns 0, `none` when it returns 1. -/
def julia_escape (w h : ℤ) (xl xr yb yt : ℚ) (i j : ℤ) : Option ℕ :=
  escapeIn (-0.8) 0.156 200 (xmap w xl xr i) (ymap h yb yt j)

/-- Number of loop iterations `julia_point` executes before returning. -/
def julia_steps (w h : ℤ) (xl xr yb yt : ℚ) (i j : ℤ) : ℕ :=
  match julia_escape w h xl xr yb yt i j with
  | some k => k
  | none => 200

/-- Exact orbit of the quadratic iteration `a ↦ a² + c` started at `(ar, ai)`:
`orbitR cr ci ar ai k` is the iterate after `k` updates of the loop body
`t = ar*ar - ai*ai + cr; ai = ar*ai + ai*ar + ci; ar = t`. -/
def orbitR (cr ci : ℚ) : ℚ → ℚ → ℕ → ℚ × ℚ
  | ar, ai, 0 => (ar, ai)
  | ar, ai, k + 1 =>
    orbitR cr ci (ar * ar - ai * ai + cr) (ar * ai + ai * ar + ci) k

/-- Squared magnitude `ar*ar + ai*ai` of a point of the orbit. -/
def normSqP (p : ℚ × ℚ) : ℚ := p.1 * p.1 + p.2 * p.2

/-- `julia_rgb` (src/julia_set.c, lines 91-140): the flat `3*w*h`-byte buffer,
row-major, `rgb[k] = rgb[k+1] = 255*(1-juliaValue)`, `rgb[k+2] = 255` at
`k = (j*w + i)*3`. -/
def julia_rgb (w h : ℕ) (xl xr yb yt : ℚ) : List ℕ :=
  (List.range h).flatMap fun j =>
    (List.range w).flatMap fun i =>
      let v := julia_point (w : ℤ) (h : ℤ) xl xr yb yt (i : ℤ) (j : ℤ)
      [255 * (1 - v), 255 * (1 - v), 255]

/-- Buffer offset `k = (j*w + i)*3` computed at line 132 of the source. -/
def offsetK (w i j : ℕ) : ℕ := (j * w + i) * 3

/-- `tga_write` (src/julia_set.c, lines 216-267) as the byte sequence it writes:
the fixed 12-byte header, the 6-byte dimensions header (each entry truncated to
an unsigned char), then `3*w*h` bytes read from the pixel buffer. -/
def tga_write (w h : ℕ) (rgb : List ℕ) : List ℕ :=
  [0, 0, 2, 0, 0, 0, 0, 0, 0, 0, 0, 0] ++
    [w % 256, w / 256 % 256, h % 256, h / 256 % 256, 24, 0] ++
    rgb.take (3 * w * h)

/-- One pixel task of the parallel fill loop (lines 124-137): writes the three
bytes of pixel `p` into the buffer at offset `(p.2*w + p.1)*3`. -/
def writePixel (w h : ℕ) (xl xr yb yt : ℚ) (buf : List ℕ) (p : ℕ × ℕ) : List ℕ :=
  let v := julia_point (w : ℤ) (h : ℤ) xl xr yb yt (p.1 : ℤ) (p.2 : ℤ)
  let k := (p.2 * w + p.1) * 3
  ((buf.set k (255 * (1 - v))).set (k + 1) (255 * (1 - v))).set (k + 2) 255

/-- The full `w × h` pixel index space the two nested loops enumerate. -/
def allPixels (w h : ℕ) : List (ℕ × ℕ) :=
  (List.range h).flatMap fun j => (List.range w).map fun i => (i, j)

/-- Outcome of running the fill loop's pixel tasks in the order given by
`order`, starting from a freshly allocated (zeroed) buffer. -/
def fillBuf (w h : ℕ) (xl xr yb yt : ℚ) (order : List (ℕ × ℕ)) : List ℕ :=
  order.foldl (writePixel w h xl xr yb yt) (List.replicate (3 * w * h) 0)

/-! ### Characterization of the escape-time loop in terms of the exact orbit -/

lemma orbitR_succ_front (cr ci ar ai : ℚ) (k : ℕ) :
    orbitR cr ci ar ai (k + 1) =
      orbitR cr ci (ar * ar - ai * ai + cr) (ar * ai + ai * ar + ci) k := rfl

lemma juliaLoop_zero_or_one (cr ci : ℚ) (n : ℕ) (ar ai : ℚ) :
    juliaLoop cr ci n ar ai = 0 ∨ juliaLoop cr ci n ar ai = 1 := by
  induction n generalizing ar ai with
  | zero => right; rfl
  | succ n ih =>
    simp only [juliaLoop]
    split
    · exact Or.inl rfl
    · exact ih _ _

lemma juliaLoop_eq_one_iff (cr ci : ℚ) (n : ℕ) (ar ai : ℚ) :
    juliaLoop cr ci n ar ai = 1 ↔
      ∀ k, 1 ≤ k → k ≤ n → normSqP (orbitR cr ci ar ai k) ≤ 1000 := by
  induction n generalizing ar ai with
  | zero =>
    constructor
    · intro _ k hk1 hk0
      exact absurd (hk1.trans hk0) (by omega)
    · intro _; rfl
  | succ n ih =>
    simp only [juliaLoop]
    split
    case isTrue hesc =>
      constructor
      · intro h0; exact absurd h0 (by omega)
      · intro hall
        have h1 := hall 1 (by omega) (by omega)
        simp only [orbitR, normSqP] at h1
        exact absurd hesc (not_lt.mpr h1)
    case isFalse hesc =>
      rw [ih]
      constructor
      · intro hall k hk1 hkn
        obtain ⟨m, rfl⟩ : ∃ m, k = m + 1 := ⟨k - 1, by omega⟩
        rw [orbitR_succ_front]
        rcases Nat.eq_zero_or_pos m with rfl | hm
        · simp only [orbitR, normSqP]
          exact not_lt.mp hesc
        · exact hall m hm (by omega)
      · intro hall k hk1 hkn
        rw [← orbitR_succ_front]
        exact hall (k + 1) (by omega) (by omega)

lemma juliaLoop_eq_zero_iff (cr ci : ℚ) (n : ℕ) (ar ai : ℚ) :
    juliaLoop cr ci n ar ai = 0 ↔
      ∃ k, 1 ≤ k ∧ k ≤ n ∧ 1000 < normSqP (orbitR cr ci ar ai k) := by
  constructor
  · intro h0
    by_contra hno
    push_neg at hno
    have h1 : juliaLoop cr ci n ar ai = 1 :=
      (juliaLoop_eq_one_iff cr ci n ar ai).mpr fun k hk1 hkn => hno k hk1 hkn
    omega
  · rintro ⟨k, hk1, hkn, hesc⟩
    rcases juliaLoop_zero_or_one cr ci n ar ai with h | h
    · exact h
    · have := (juliaLoop_eq_one_iff cr ci n ar ai).mp h k hk1 hkn
      exact absurd hesc (not_lt.mpr this)

lemma escapeIn_eq_none_iff (cr ci : ℚ) (n : ℕ) (ar ai : ℚ) :
    escapeIn cr ci n ar ai = none ↔ juliaLoop cr ci n ar ai = 1 := by
  induction n generalizing ar ai with
  | zero => simp [escapeIn, juliaLoop]
  | succ n ih =>
    simp only [escapeIn, juliaLoop]
    split
    · simp
    · simpa [Option.map_eq_none'] using ih _ _

lemma escapeIn_some_iff (cr ci : ℚ) (n : ℕ) (ar ai : ℚ) (k : ℕ) :
    escapeIn cr ci n ar ai = some k ↔
      (1 ≤ k ∧ k ≤ n ∧ 1000 < normSqP (orbitR cr ci ar ai k) ∧
        ∀ m, 1 ≤ m → m < k → normSqP (orbitR cr ci ar ai m) ≤ 1000) := by
  induction n generalizing ar ai k with
  | zero =>
    simp only [escapeIn]
    constructor
    · intro h; exact absurd h (by simp)
    · rintro ⟨hk1, hk0, -⟩; exact absurd (hk1.trans hk0) (by omega)
  | succ n ih =>
    simp only [escapeIn]
    split
    case isTrue hesc =>
      constructor
      · intro h
        obtain rfl : k = 1 := by simpa using h.symm
        refine ⟨le_refl 1, by omega, ?_, ?_⟩
        · simpa only [orbitR, normSqP] using hesc
        · intro m hm1 hm; exact absurd (hm1.trans_lt hm) (by omega)
      · rintro ⟨hk1, hkn, hkesc, hbefore⟩
        have hk : k = 1 := by
          by_contra hne
          have h1 := hbefore 1 (le_refl 1) (by omega)
          simp only [orbitR, normSqP] at h1
          exact absurd hesc (not_lt.mpr h1)
        subst hk; rfl
    case isFalse hesc =>
      rw [Option.map_eq_some']
      constructor
      · rintro ⟨m, hm, rfl⟩
        obtain ⟨hm1, hmn, hmesc, hmbefore⟩ := (ih _ _ _).mp hm
        refine ⟨by omega, by omega, ?_, ?_⟩
        · rwa [orbitR_succ_front]
        · intro l hl1 hl
          obtain ⟨l', rfl⟩ : ∃ l', l = l' + 1 := ⟨l - 1, by omega⟩
          rw [orbitR_succ_front]
          rcases Nat.eq_zero_or_pos l' with rfl | hl'
          · simp only [orbitR, normSqP]
            exact not_lt.mp hesc
          · exact hmbefore l' hl' (by omega)
      · rintro ⟨hk1, hkn, hkesc, hbefore⟩
        have hk2 : 2 ≤ k := by
          by_contra hlt
          obtain rfl : k = 1 := by omega
          simp only [orbitR, normSqP] at hkesc
          exact absurd hkesc (not_lt.mpr (not_lt.mp hesc))
        refine ⟨k - 1, (ih _ _ _).mpr ⟨by omega, by omega, ?_, ?_⟩, by omega⟩
        · rw [← orbitR_succ_front]
          have : k - 1 + 1 = k := by omega
          rwa [this]
        · intro m hm1 hm
          rw [← orbitR_succ_front]
          exact hbefore (m + 1) (by omega) (by omega)

lemma escapeIn_some_imp_zero (cr ci : ℚ) (n : ℕ) (ar ai : ℚ) (k : ℕ)
    (h : escapeIn cr ci n ar ai = some k) : juliaLoop cr ci n ar ai = 0 := by
  obtain ⟨hk1, hkn, hesc, _⟩ := (escapeIn_some_iff cr ci n ar ai k).mp h
  exact (juliaLoop_eq_zero_iff cr ci n ar ai).mpr ⟨k, hk1, hkn, hesc⟩

/-! ### The coordinate mapping at the corners, and its symmetry -/

lemma sub_one_cast_ne_zero {w : ℤ} (hw : 1 < w) : ((w - 1 : ℤ) : ℚ) ≠ 0 := by
  rw [Int.cast_ne_zero]
  omega

lemma xmap_zero (w : ℤ) (hw : 1 < w) (xl xr : ℚ) : xmap w xl xr 0 = xl := by
  unfold xmap
  have hne := sub_one_cast_ne_zero hw
  push_cast at hne ⊢
  field_simp

lemma xmap_last (w : ℤ) (hw : 1 < w) (xl xr : ℚ) : xmap w xl xr (w - 1) = xr := by
  unfold xmap
  have hne := sub_one_cast_ne_zero hw
  push_cast at hne ⊢
  field_simp

lemma ymap_zero (h : ℤ) (hh : 1 < h) (yb yt : ℚ) : ymap h yb yt 0 = yb :=
  xmap_zero h hh yb yt

lemma ymap_last (h : ℤ) (hh : 1 < h) (yb yt : ℚ) : ymap h yb yt (h - 1) = yt :=
  xmap_last h hh yb yt

lemma xmap_rotate (w : ℤ) (xl : ℚ) (i : ℤ) :
    xmap w xl (-xl) (w - 1 - i) = -(xmap w xl (-xl) i) := by
  unfold xmap
  rw [← neg_div]
  congr 1
  push_cast
  ring

lemma juliaLoop_neg (cr ci : ℚ) (n : ℕ) (ar ai : ℚ) :
    juliaLoop cr ci (n + 1) (-ar) (-ai) = juliaLoop cr ci (n + 1) ar ai := by
  have h1 : -ar * -ar - -ai * -ai + cr = ar * ar - ai * ai + cr := by ring
  have h2 : -ar * -ai + -ai * -ar + ci = ar * ai + ai * ar + ci := by ring
  simp only [juliaLoop]
  rw [h1, h2]

/-! ### Indexing the flat buffer built by the nested fill loops -/

lemma flatMap_range_length {α : Type} (f : ℕ → List α) (c n : ℕ)
    (hc : ∀ k, k < n → (f k).length = c) :
    ((List.range n).flatMap f).length = n * c := by
  induction n with
  | zero => simp
  | succ n ih =>
    rw [List.range_succ, List.flatMap_append, List.length_append,
      ih (fun k hk => hc k (by omega))]
    have he : (List.flatMap [n] f).length = c := by
      simp [hc n (by omega)]
    rw [he, Nat.succ_mul]

lemma flatMap_range_getElem? {α : Type} (f : ℕ → List α) (c n q r : ℕ)
    (hc : ∀ k, k < n → (f k).length = c) (hq : q < n) (hr : r < c) :
    ((List.range n).flatMap f)[q * c + r]? = (f q)[r]? := by
  induction n with
  | zero => omega
  | succ n ih =>
    rw [List.range_succ, List.flatMap_append]
    have hlen : ((List.range n).flatMap f).length = n * c :=
      flatMap_range_length f c n (fun k hk => hc k (by omega))
    rcases Nat.lt_or_ge q n with hq2 | hq2
    · rw [List.getElem?_append_left]
      · exact ih (fun k hk => hc k (by omega)) hq2
      · rw [hlen]
        have h1 : (q + 1) * c ≤ n * c := Nat.mul_le_mul_right c (by omega)
        have h2 : (q + 1) * c = q * c + c := Nat.succ_mul q c
        omega
    · have hq3 : q = n := by omega
      subst hq3
      rw [List.getElem?_append_right (by omega)]
      rw [hlen, Nat.add_sub_cancel_left]
      simp

/-- The three bytes the fill loop writes for one pixel. -/
def pixBytes (w h : ℕ) (xl xr yb yt : ℚ) (j i : ℕ) : List ℕ :=
  let v := julia_point (w : ℤ) (h : ℤ) xl xr yb yt (i : ℤ) (j : ℤ)
  [255 * (1 - v), 255 * (1 - v), 255]

lemma julia_rgb_eq_rows (w h : ℕ) (xl xr yb yt : ℚ) :
    julia_rgb w h xl xr yb yt =
      (List.range h).flatMap fun j => (List.range w).flatMap (pixBytes w h xl xr yb yt j) :=
  rfl

lemma pixBytes_length (w h : ℕ) (xl xr yb yt : ℚ) (j i : ℕ) :
    (pixBytes w h xl xr yb yt j i).length = 3 := rfl

lemma row_length (w h : ℕ) (xl xr yb yt : ℚ) (j : ℕ) :
    ((List.range w).flatMap (pixBytes w h xl xr yb yt j)).length = w * 3 :=
  flatMap_range_length _ 3 w (fun i _ => pixBytes_length w h xl xr yb yt j i)

lemma julia_rgb_length (w h : ℕ) (xl xr yb yt : ℚ) :
    (julia_rgb w h xl xr yb yt).length = 3 * w * h := by
  rw [julia_rgb_eq_rows,
    flatMap_range_length _ (w * 3) h (fun j _ => row_length w h xl xr yb yt j)]
  ring

lemma julia_rgb_getElem? (w h : ℕ) (xl xr yb yt : ℚ) (i j c : ℕ)
    (hi : i < w) (hj : j < h) (hc : c < 3) :
    (julia_rgb w h xl xr yb yt)[(j * w + i) * 3 + c]? =
      some (if c = 2 then 255
        else 255 * (1 - julia_point (w : ℤ) (h : ℤ) xl xr yb yt (i : ℤ) (j : ℤ))) := by
  rw [julia_rgb_eq_rows]
  have hidx : (j * w + i) * 3 + c = j * (w * 3) + (i * 3 + c) := by ring
  rw [hidx]
  rw [flatMap_range_getElem? _ (w * 3) h j (i * 3 + c)
    (fun k _ => row_length w h xl xr yb yt k) hj
    (by
      have h1 : (i + 1) * 3 ≤ w * 3 := Nat.mul_le_mul_right 3 (by omega)
      have h2 : (i + 1) * 3 = i * 3 + 3 := Nat.succ_mul i 3
      omega)]
  rw [flatMap_range_getElem? _ 3 w i c
    (fun k _ => pixBytes_length w h xl xr yb yt j k) hi hc]
  unfold pixBytes
  interval_cases c <;> simp

/-! ### The offset map of the fill loop -/

lemma rowcol_mod (w i j : ℕ) (hi : i < w) : (j * w + i) % w = i := by
  rw [Nat.mul_comm, Nat.mul_add_mod]
  exact Nat.mod_eq_of_lt hi

lemma rowcol_div (w i j : ℕ) (hw0 : 0 < w) (hi : i < w) : (j * w + i) / w = j := by
  rw [Nat.mul_comm, Nat.mul_add_div hw0, Nat.div_eq_of_lt hi]
  omega

lemma offsetK_add_lt (w h i j c : ℕ) (hi : i < w) (hj : j < h) (hc : c < 3) :
    offsetK w i j + c < 3 * w * h := by
  unfold offsetK
  have h1 : (j + 1) * w ≤ h * w := Nat.mul_le_mul_right w (by omega)
  have h2 : (j + 1) * w = j * w + w := Nat.succ_mul j w
  have h3 : j * w + i + 1 ≤ h * w := by omega
  have h4 : (j * w + i + 1) * 3 ≤ (h * w) * 3 := Nat.mul_le_mul_right 3 h3
  have h5 : (j * w + i + 1) * 3 = (j * w + i) * 3 + 3 := Nat.succ_mul _ 3
  have h6 : (h * w) * 3 = 3 * w * h := by ring
  omega

lemma offsetK_inj (w i j i2 j2 : ℕ) (hi : i < w) (hi2 : i2 < w)
    (heq : offsetK w i j = offsetK w i2 j2) : i = i2 ∧ j = j2 := by
  unfold offsetK at heq
  have hw0 : 0 < w := by omega
  have hA : j * w + i = j2 * w + i2 := by omega
  have h1 := rowcol_mod w i j hi
  have h2 := rowcol_mod w i2 j2 hi2
  have h3 := rowcol_div w i j hw0 hi
  have h4 := rowcol_div w i2 j2 hw0 hi2
  constructor
  · rw [← h1, ← h2, hA]
  · rw [← h3, ← h4, hA]

/-- Every position of the `3*w*h`-byte buffer is covered by exactly one
(pixel, channel) triple through the offset map. -/
lemma offsetK_surj_unique (w h m : ℕ) (hm : m < 3 * w * h) :
    ∃! t : ℕ × ℕ × ℕ, t.1 < w ∧ t.2.1 < h ∧ t.2.2 < 3 ∧
      m = offsetK w t.1 t.2.1 + t.2.2 := by
  have hw0 : 0 < w := by
    rcases Nat.eq_zero_or_pos w with rfl | h2
    · simp at hm
    · exact h2
  have hh0 : 0 < h := by
    rcases Nat.eq_zero_or_pos h with rfl | h2
    · simp at hm
    · exact h2
  have hA : m / 3 < w * h := by
    have h1 : m / 3 < (3 * w * h) / 3 + 1 := by
      have h0 : m / 3 ≤ (3 * w * h) / 3 :=
        Nat.div_le_div_right (Nat.le_of_lt_succ (by omega : m < 3 * w * h + 1))
      omega
    have h2 : (3 * w * h) / 3 = w * h := by
      have h3 : 3 * w * h = (w * h) * 3 := by ring
      rw [h3, Nat.mul_div_cancel _ (by omega)]
    rcases Nat.lt_or_ge (m / 3) (w * h) with h4 | h4
    · exact h4
    · exfalso
      have h5 : (w * h) * 3 ≤ (m / 3) * 3 := Nat.mul_le_mul_right 3 h4
      have h6 : (m / 3) * 3 ≤ m := Nat.div_mul_le_self m 3
      have h7 : (w * h) * 3 = 3 * w * h := by ring
      omega
  refine ⟨⟨m / 3 % w, m / 3 / w, m % 3⟩, ⟨?_, ?_, ?_, ?_⟩, ?_⟩
  · exact Nat.mod_lt _ hw0
  · exact Nat.div_lt_of_lt_mul hA
  · exact Nat.mod_lt _ (by omega)
  · show m = offsetK w (m / 3 % w) (m / 3 / w) + m % 3
    unfold offsetK
    have h1 : m / 3 / w * w + m / 3 % w = m / 3 := by
      rw [Nat.mul_comm]
      exact Nat.div_add_mod _ _
    have h2 : 3 * (m / 3) + m % 3 = m := Nat.div_add_mod m 3
    have h3 : (m / 3) * 3 = 3 * (m / 3) := Nat.mul_comm _ _
    rw [h1]
    omega
  · rintro ⟨i2, j2, c2⟩ ⟨hi2, hj2, hc2, hm2⟩
    simp only at hi2 hj2 hc2 hm2
    unfold offsetK at hm2
    have hc : m % 3 = c2 := by
      rw [hm2, rowcol_mod 3 c2 (j2 * w + i2) hc2]
    have hd : m / 3 = j2 * w + i2 := by
      rw [hm2, rowcol_div 3 c2 (j2 * w + i2) (by omega) hc2]
    have hi3 : m / 3 % w = i2 := by
      rw [hd, rowcol_mod w i2 j2 hi2]
    have hj3 : m / 3 / w = j2 := by
      rw [hd, rowcol_div w i2 j2 hw0 hi2]
    simp only [Prod.mk.injEq]
    exact ⟨hi3.symm, hj3.symm, hc.symm⟩

/-! ### The fill loop writes each buffer slot once, in any task order -/

lemma slot_ne (w i j i2 j2 c c2 : ℕ) (hi : i < w) (hi2 : i2 < w)
    (hc : c < 3) (hc2 : c2 < 3) (hne : (i, j) ≠ (i2, j2)) :
    (j * w + i) * 3 + c ≠ (j2 * w + i2) * 3 + c2 := by
  intro heq
  have hmod : c = c2 := by
    rw [← rowcol_mod 3 c (j * w + i) hc, ← rowcol_mod 3 c2 (j2 * w + i2) hc2, heq]
  have hAB : j * w + i = j2 * w + i2 := by omega
  have hii : i = i2 := by
    rw [← rowcol_mod w i j hi, ← rowcol_mod w i2 j2 hi2, hAB]
  have hw0 : 0 < w := by omega
  have hjj : j = j2 := by
    rw [← rowcol_div w i j hw0 hi, ← rowcol_div w i2 j2 hw0 hi2, hAB]
  exact hne (by rw [hii, hjj])

lemma writePixel_length (w h : ℕ) (xl xr yb yt : ℚ) (buf : List ℕ) (p : ℕ × ℕ) :
    (writePixel w h xl xr yb yt buf p).length = buf.length := by
  simp [writePixel]

lemma foldl_writePixel_length (w h : ℕ) (xl xr yb yt : ℚ) (order : List (ℕ × ℕ))
    (buf : List ℕ) :
    (order.foldl (writePixel w h xl xr yb yt) buf).length = buf.length := by
  induction order generalizing buf with
  | nil => rfl
  | cons p rest ih => rw [List.foldl_cons, ih, writePixel_length]

lemma writePixel_getElem?_other (w h : ℕ) (xl xr yb yt : ℚ) (buf : List ℕ)
    (p : ℕ × ℕ) (hp : p.1 < w) (i j c : ℕ) (hi : i < w) (hc : c < 3)
    (hne : (i, j) ≠ p) :
    (writePixel w h xl xr yb yt buf p)[(j * w + i) * 3 + c]? =
      buf[(j * w + i) * 3 + c]? := by
  obtain ⟨pi, pj⟩ := p
  have h0 : (pj * w + pi) * 3 + 0 ≠ (j * w + i) * 3 + c :=
    slot_ne w pi pj i j 0 c hp hi (by omega) hc (fun hpp => hne (by simp_all))
  have h1 : (pj * w + pi) * 3 + 1 ≠ (j * w + i) * 3 + c :=
    slot_ne w pi pj i j 1 c hp hi (by omega) hc (fun hpp => hne (by simp_all))
  have h2 : (pj * w + pi) * 3 + 2 ≠ (j * w + i) * 3 + c :=
    slot_ne w pi pj i j 2 c hp hi (by omega) hc (fun hpp => hne (by simp_all))
  unfold writePixel
  simp only
  rw [List.getElem?_set_ne h2, List.getElem?_set_ne h1,
    List.getElem?_set_ne (by omega : (pj * w + pi) * 3 ≠ (j * w + i) * 3 + c)]

lemma writePixel_getElem?_self (w h : ℕ) (xl xr yb yt : ℚ) (buf : List ℕ)
    (i j c : ℕ) (hi : i < w) (hj : j < h) (hc : c < 3)
    (hlen : buf.length = 3 * w * h) :
    (writePixel w h xl xr yb yt buf (i, j))[(j * w + i) * 3 + c]? =
      some (if c = 2 then 255
        else 255 * (1 - julia_point (w : ℤ) (h : ℤ) xl xr yb yt (i : ℤ) (j : ℤ))) := by
  have hlt : ∀ d, d < 3 → (j * w + i) * 3 + d < 3 * w * h := by
    intro d hd
    have := offsetK_add_lt w h i j d hi hj hd
    unfold offsetK at this
    exact this
  unfold writePixel
  simp only
  interval_cases c
  · rw [List.getElem?_set_ne (by omega), List.getElem?_set_ne (by omega)]
    rw [show (j * w + i) * 3 + 0 = (j * w + i) * 3 from rfl]
    rw [List.getElem?_set_self (by rw [hlen]; exact (by simpa using hlt 0 (by omega)))]
    simp
  · rw [List.getElem?_set_ne (by omega)]
    rw [List.getElem?_set_self (by simp only [List.length_set]; rw [hlen]; exact hlt 1 (by omega))]
    simp
  · rw [List.getElem?_set_self (by simp only [List.length_set]; rw [hlen]; exact hlt 2 (by omega))]
    simp

lemma foldl_writePixel_notmem (w h : ℕ) (xl xr yb yt : ℚ) (order : List (ℕ × ℕ))
    (buf : List ℕ) (i j c : ℕ) (hi : i < w) (hc : c < 3)
    (hrange : ∀ p ∈ order, p.1 < w ∧ p.2 < h) (hnot : (i, j) ∉ order) :
    (order.foldl (writePixel w h xl xr yb yt) buf)[(j * w + i) * 3 + c]? =
      buf[(j * w + i) * 3 + c]? := by
  induction order generalizing buf with
  | nil => rfl
  | cons p rest ih =>
    rw [List.foldl_cons]
    rw [ih _ (fun q hq => hrange q (List.mem_cons_of_mem p hq))
      (fun hmem2 => hnot (List.mem_cons_of_mem p hmem2))]
    exact writePixel_getElem?_other w h xl xr yb yt buf p
      (hrange p (List.mem_cons_self p rest)).1 i j c hi hc
      (fun hreq => hnot (hreq ▸ List.mem_cons_self p rest))

lemma foldl_writePixel_mem (w h : ℕ) (xl xr yb yt : ℚ) (order : List (ℕ × ℕ))
    (buf : List ℕ) (i j c : ℕ) (hi : i < w) (hj : j < h) (hc : c < 3)
    (hlen : buf.length = 3 * w * h)
    (hrange : ∀ p ∈ order, p.1 < w ∧ p.2 < h) (hnd : order.Nodup)
    (hmem : (i, j) ∈ order) :
    (order.foldl (writePixel w h xl xr yb yt) buf)[(j * w + i) * 3 + c]? =
      some (if c = 2 then 255
        else 255 * (1 - julia_point (w : ℤ) (h : ℤ) xl xr yb yt (i : ℤ) (j : ℤ))) := by
  induction order generalizing buf with
  | nil => exact absurd hmem (List.not_mem_nil _)
  | cons p rest ih =>
    rw [List.foldl_cons]
    rcases List.mem_cons.mp hmem with heq | hrest
    · have hnotrest : (i, j) ∉ rest := by
        rw [heq]
        exact (List.nodup_cons.mp hnd).1
      rw [foldl_writePixel_notmem w h xl xr yb yt rest _ i j c hi hc
        (fun q hq => hrange q (List.mem_cons_of_mem p hq)) hnotrest]
      rw [← heq]
      exact writePixel_getElem?_self w h xl xr yb yt buf i j c hi hj hc hlen
    · exact ih _ (by rw [writePixel_length]; exact hlen)
        (fun q hq => hrange q (List.mem_cons_of_mem p hq))
        (List.nodup_cons.mp hnd).2 hrest

lemma mem_allPixels (w h : ℕ) (p : ℕ × ℕ) :
    p ∈ allPixels w h ↔ p.1 < w ∧ p.2 < h := by
  obtain ⟨i, j⟩ := p
  simp only [allPixels, List.mem_flatMap, List.mem_map, List.mem_range]
  constructor
  · rintro ⟨j2, hj2, i2, hi2, heq⟩
    obtain ⟨rfl, rfl⟩ := Prod.mk.injEq .. ▸ heq
    exact ⟨hi2, hj2⟩
  · rintro ⟨h1, h2⟩
    exact ⟨j, h2, i, h1, rfl⟩

lemma nodup_allPixels (w h : ℕ) : (allPixels w h).Nodup := by
  unfold allPixels
  rw [List.nodup_flatMap]
  constructor
  · intro j _
    exact List.Nodup.map (fun a b hab => by simpa using congrArg Prod.fst hab)
      (List.nodup_range w)
  · refine List.Pairwise.imp ?_ (List.nodup_range h)
    intro a b hne p hp1 hp2
    simp only [List.mem_map, List.mem_range] at hp1 hp2
    obtain ⟨i1, _, rfl⟩ := hp1
    obtain ⟨i2, _, heq⟩ := hp2
    exact hne (by simpa using (congrArg Prod.snd heq).symm)

/-- Filling the buffer in any order that visits every pixel exactly once
produces exactly the sequentially-built buffer `julia_rgb`. -/
lemma fillBuf_perm (w h : ℕ) (xl xr yb yt : ℚ) (order : List (ℕ × ℕ))
    (hperm : order.Perm (allPixels w h)) :
    fillBuf w h xl xr yb yt order = julia_rgb w h xl xr yb yt := by
  have hrange : ∀ p ∈ order, p.1 < w ∧ p.2 < h := fun p hp =>
    (mem_allPixels w h p).mp (hperm.mem_iff.mp hp)
  have hnd : order.Nodup := (nodup_allPixels w h).perm hperm.symm
  apply List.ext_getElem?
  intro m
  rcases Nat.lt_or_ge m (3 * w * h) with hm | hm
  · obtain ⟨⟨i, j, c⟩, ⟨hi, hj, hc, hoff⟩, _⟩ := offsetK_surj_unique w h m hm
    simp only at hi hj hc hoff
    have hoff2 : m = (j * w + i) * 3 + c := by
      rw [hoff]; rfl
    rw [hoff2]
    rw [julia_rgb_getElem? w h xl xr yb yt i j c hi hj hc]
    unfold fillBuf
    rw [foldl_writePixel_mem w h xl xr yb yt order _ i j c hi hj hc
      (by simp) hrange hnd ((mem_allPixels w h (i, j)).mpr ⟨hi, hj⟩ |> hperm.mem_iff.mpr)]
  · rw [List.getElem?_eq_none, List.getElem?_eq_none]
    · rw [julia_rgb_length]; exact hm
    · unfold fillBuf
      rw [foldl_writePixel_length]
      simpa using hm
/-! ### A checked interval-arithmetic certificate for a bounded orbit

To certify that the exact orbit of a point never exceeds the threshold in any
of the 200 iterations, we run the iteration on integer-scaled intervals
(endpoints are integers at scale `2^100`) with outward rounding, and prove the
interval iteration sound for the exact rational orbit. -/

def SC : ℤ := 2 ^ 100

def SC2 : ℤ := 2 ^ 200

/-- Ceiling division of integers via floor division. -/
def cdivI (a b : ℤ) : ℤ := -((-a).fdiv b)

def sqLoI (lo hi : ℤ) : ℤ := if 0 ≤ lo then lo * lo else if hi ≤ 0 then hi * hi else 0

def sqHiI (lo hi : ℤ) : ℤ := max (lo * lo) (hi * hi)

def mulLoI (al ah bl bh : ℤ) : ℤ :=
  min (min (al * bl) (al * bh)) (min (ah * bl) (ah * bh))

def mulHiI (al ah bl bh : ℤ) : ℤ :=
  max (max (al * bl) (al * bh)) (max (ah * bl) (ah * bh))

def crS2lo : ℤ := Int.fdiv (-4 * SC2) 5

def crS2hi : ℤ := cdivI (-4 * SC2) 5

def ciS2lo : ℤ := Int.fdiv (39 * SC2) 250

def ciS2hi : ℤ := cdivI (39 * SC2) 250

/-- A rectangle of the plane, endpoints scaled by `2^100`. -/
structure BoxI where
  al : ℤ
  ah : ℤ
  bl : ℤ
  bh : ℤ

/-- One outward-rounded interval step of the loop body. -/
def stepBoxI (b : BoxI) : BoxI :=
  let sl := sqLoI b.al b.ah
  let sh := sqHiI b.al b.ah
  let ul := sqLoI b.bl b.bh
  let uh := sqHiI b.bl b.bh
  let tl := Int.fdiv (sl - uh + crS2lo) SC
  let th := cdivI (sh - ul + crS2hi) SC
  let pl := mulLoI b.al b.ah b.bl b.bh
  let ph := mulHiI b.al b.ah b.bl b.bh
  let il := Int.fdiv (pl + pl + ciS2lo) SC
  let ih := cdivI (ph + ph + ciS2hi) SC
  ⟨tl, th, il, ih⟩

def boxOKI (b : BoxI) : Bool :=
  sqHiI b.al b.ah + sqHiI b.bl b.bh ≤ 1000 * SC2

/-- Runs `n` interval steps, checking the threshold after every step. -/
def certB : ℕ → BoxI → Bool
  | 0, _ => true
  | n + 1, b =>
    let b2 := stepBoxI b
    boxOKI b2 && certB n b2

def inBoxI (x y : ℚ) (b : BoxI) : Prop :=
  (b.al : ℚ) ≤ x * ((SC : ℤ) : ℚ) ∧ x * ((SC : ℤ) : ℚ) ≤ (b.ah : ℚ) ∧
    (b.bl : ℚ) ≤ y * ((SC : ℤ) : ℚ) ∧ y * ((SC : ℤ) : ℚ) ≤ (b.bh : ℚ)

lemma SCQ_pos : (0 : ℚ) < ((SC : ℤ) : ℚ) := by
  unfold SC
  push_cast
  positivity

lemma SC2_cast : ((SC2 : ℤ) : ℚ) = ((SC : ℤ) : ℚ) * ((SC : ℤ) : ℚ) := by
  unfold SC SC2
  push_cast
  ring

lemma fdiv_cast_le (a b : ℤ) (hb : 0 < b) (q : ℚ) (h : (a : ℚ) ≤ q * (b : ℚ)) :
    ((Int.fdiv a b : ℤ) : ℚ) ≤ q := by
  have hz : b * Int.fdiv a b ≤ a := by
    have h1 := Int.fmod_add_fdiv a b
    have h2 := Int.fmod_nonneg' a hb
    omega
  have hzq : ((b : ℚ)) * ((Int.fdiv a b : ℤ) : ℚ) ≤ (a : ℚ) := by exact_mod_cast hz
  have hbq : (0 : ℚ) < (b : ℚ) := by exact_mod_cast hb
  have hmul : ((Int.fdiv a b : ℤ) : ℚ) * (b : ℚ) ≤ q * (b : ℚ) := by
    calc ((Int.fdiv a b : ℤ) : ℚ) * (b : ℚ) = (b : ℚ) * ((Int.fdiv a b : ℤ) : ℚ) := by ring
    _ ≤ (a : ℚ) := hzq
    _ ≤ q * (b : ℚ) := h
  exact le_of_mul_le_mul_right hmul hbq

lemma le_cdivI_cast (a b : ℤ) (hb : 0 < b) (q : ℚ) (h : q * (b : ℚ) ≤ (a : ℚ)) :
    q ≤ ((cdivI a b : ℤ) : ℚ) := by
  have hz : a ≤ b * cdivI a b := by
    unfold cdivI
    have h1 := Int.fmod_add_fdiv (-a) b
    have h2 := Int.fmod_nonneg' (-a) hb
    have h3 : b * -((-a).fdiv b) = -(b * ((-a).fdiv b)) := by ring
    rw [h3]
    omega
  have hzq : (a : ℚ) ≤ ((b : ℚ)) * ((cdivI a b : ℤ) : ℚ) := by exact_mod_cast hz
  have hbq : (0 : ℚ) < (b : ℚ) := by exact_mod_cast hb
  have hmul : q * (b : ℚ) ≤ ((cdivI a b : ℤ) : ℚ) * (b : ℚ) := by
    calc q * (b : ℚ) ≤ (a : ℚ) := h
    _ ≤ (b : ℚ) * ((cdivI a b : ℤ) : ℚ) := hzq
    _ = ((cdivI a b : ℤ) : ℚ) * (b : ℚ) := by ring
  exact le_of_mul_le_mul_right hmul hbq

lemma crS2lo_le : ((crS2lo : ℤ) : ℚ) ≤ (-0.8) * ((SC2 : ℤ) : ℚ) := by
  unfold crS2lo
  apply fdiv_cast_le _ _ (by norm_num)
  exact le_of_eq (by push_cast; ring)

lemma le_crS2hi : (-0.8) * ((SC2 : ℤ) : ℚ) ≤ ((crS2hi : ℤ) : ℚ) := by
  unfold crS2hi
  apply le_cdivI_cast _ _ (by norm_num)
  exact le_of_eq (by push_cast; ring)

lemma ciS2lo_le : ((ciS2lo : ℤ) : ℚ) ≤ (0.156) * ((SC2 : ℤ) : ℚ) := by
  unfold ciS2lo
  apply fdiv_cast_le _ _ (by norm_num)
  exact le_of_eq (by push_cast; ring)

lemma le_ciS2hi : (0.156) * ((SC2 : ℤ) : ℚ) ≤ ((ciS2hi : ℤ) : ℚ) := by
  unfold ciS2hi
  apply le_cdivI_cast _ _ (by norm_num)
  exact le_of_eq (by push_cast; ring)

lemma sq_lower (lo hi : ℤ) (x : ℚ) (h1 : (lo : ℚ) ≤ x) (h2 : x ≤ (hi : ℚ)) :
    ((sqLoI lo hi : ℤ) : ℚ) ≤ x * x := by
  unfold sqLoI
  split
  case isTrue hlo =>
    have hlo2 : (0 : ℚ) ≤ (lo : ℚ) := by exact_mod_cast hlo
    push_cast
    nlinarith
  case isFalse hlo =>
    split
    case isTrue hhi =>
      have hhi2 : (hi : ℚ) ≤ 0 := by exact_mod_cast hhi
      push_cast
      nlinarith
    case isFalse hhi =>
      push_cast
      nlinarith

lemma sq_upper (lo hi : ℤ) (x : ℚ) (h1 : (lo : ℚ) ≤ x) (h2 : x ≤ (hi : ℚ)) :
    x * x ≤ ((sqHiI lo hi : ℤ) : ℚ) := by
  unfold sqHiI
  push_cast
  rcases le_total 0 x with hx | hx
  · exact le_max_of_le_right (by nlinarith)
  · exact le_max_of_le_left (by nlinarith)

lemma mul_between_le (a bl bh y : ℚ) (h1 : bl ≤ y) (h2 : y ≤ bh) :
    a * y ≤ max (a * bl) (a * bh) := by
  rcases le_total 0 a with ha | ha
  · exact le_max_of_le_right (mul_le_mul_of_nonneg_left h2 ha)
  · exact le_max_of_le_left (mul_le_mul_of_nonpos_left h1 ha)

lemma le_mul_between (a bl bh y : ℚ) (h1 : bl ≤ y) (h2 : y ≤ bh) :
    min (a * bl) (a * bh) ≤ a * y := by
  rcases le_total 0 a with ha | ha
  · exact min_le_of_left_le (mul_le_mul_of_nonneg_left h1 ha)
  · exact min_le_of_right_le (mul_le_mul_of_nonpos_left h2 ha)

lemma mul_upper (al ah bl bh : ℤ) (x y : ℚ)
    (ha1 : (al : ℚ) ≤ x) (ha2 : x ≤ (ah : ℚ))
    (hb1 : (bl : ℚ) ≤ y) (hb2 : y ≤ (bh : ℚ)) :
    x * y ≤ ((mulHiI al ah bl bh : ℤ) : ℚ) := by
  unfold mulHiI
  push_cast
  rcases le_total 0 y with hy | hy
  · calc x * y ≤ (ah : ℚ) * y := mul_le_mul_of_nonneg_right ha2 hy
    _ ≤ max ((ah : ℚ) * bl) ((ah : ℚ) * bh) := mul_between_le _ _ _ _ hb1 hb2
    _ ≤ _ := le_max_right _ _
  · calc x * y ≤ (al : ℚ) * y := mul_le_mul_of_nonpos_right ha1 hy
    _ ≤ max ((al : ℚ) * bl) ((al : ℚ) * bh) := mul_between_le _ _ _ _ hb1 hb2
    _ ≤ _ := le_max_left _ _

lemma mul_lower (al ah bl bh : ℤ) (x y : ℚ)
    (ha1 : (al : ℚ) ≤ x) (ha2 : x ≤ (ah : ℚ))
    (hb1 : (bl : ℚ) ≤ y) (hb2 : y ≤ (bh : ℚ)) :
    ((mulLoI al ah bl bh : ℤ) : ℚ) ≤ x * y := by
  unfold mulLoI
  push_cast
  rcases le_total 0 y with hy | hy
  · calc (min (min ((al : ℚ) * bl) ((al : ℚ) * bh)) (min ((ah : ℚ) * bl) ((ah : ℚ) * bh)))
        ≤ min ((al : ℚ) * bl) ((al : ℚ) * bh) := min_le_left _ _
    _ ≤ (al : ℚ) * y := le_mul_between _ _ _ _ hb1 hb2
    _ ≤ x * y := mul_le_mul_of_nonneg_right ha1 hy
  · calc (min (min ((al : ℚ) * bl) ((al : ℚ) * bh)) (min ((ah : ℚ) * bl) ((ah : ℚ) * bh)))
        ≤ min ((ah : ℚ) * bl) ((ah : ℚ) * bh) := min_le_right _ _
    _ ≤ (ah : ℚ) * y := le_mul_between _ _ _ _ hb1 hb2
    _ ≤ x * y := mul_le_mul_of_nonpos_right ha2 hy

lemma stepBoxI_sound (x y : ℚ) (b : BoxI) (hin : inBoxI x y b) :
    inBoxI (x * x - y * y + (-0.8)) (x * y + y * x + 0.156) (stepBoxI b) := by
  obtain ⟨h1, h2, h3, h4⟩ := hin
  have hSC : (0 : ℤ) < SC := by unfold SC; positivity
  have hsq1 := sq_lower b.al b.ah (x * ((SC : ℤ) : ℚ)) h1 h2
  have hsq2 := sq_upper b.al b.ah (x * ((SC : ℤ) : ℚ)) h1 h2
  have hsq3 := sq_lower b.bl b.bh (y * ((SC : ℤ) : ℚ)) h3 h4
  have hsq4 := sq_upper b.bl b.bh (y * ((SC : ℤ) : ℚ)) h3 h4
  have hp1 := mul_lower b.al b.ah b.bl b.bh (x * ((SC : ℤ) : ℚ)) (y * ((SC : ℤ) : ℚ)) h1 h2 h3 h4
  have hp2 := mul_upper b.al b.ah b.bl b.bh (x * ((SC : ℤ) : ℚ)) (y * ((SC : ℤ) : ℚ)) h1 h2 h3 h4
  have hcr1 := crS2lo_le
  have hcr2 := le_crS2hi
  have hci1 := ciS2lo_le
  have hci2 := le_ciS2hi
  rw [SC2_cast] at hcr1 hcr2 hci1 hci2
  refine ⟨?_, ?_, ?_, ?_⟩
  · show ((Int.fdiv (sqLoI b.al b.ah - sqHiI b.bl b.bh + crS2lo) SC : ℤ) : ℚ) ≤ _
    apply fdiv_cast_le _ _ hSC
    push_cast
    linarith [hsq1, hsq4, hcr1]
  · show _ ≤ ((cdivI (sqHiI b.al b.ah - sqLoI b.bl b.bh + crS2hi) SC : ℤ) : ℚ)
    apply le_cdivI_cast _ _ hSC
    push_cast
    linarith [hsq2, hsq3, hcr2]
  · show ((Int.fdiv (mulLoI b.al b.ah b.bl b.bh + mulLoI b.al b.ah b.bl b.bh + ciS2lo) SC : ℤ) : ℚ) ≤ _
    apply fdiv_cast_le _ _ hSC
    push_cast
    linarith [hp1, hci1]
  · show _ ≤ ((cdivI (mulHiI b.al b.ah b.bl b.bh + mulHiI b.al b.ah b.bl b.bh + ciS2hi) SC : ℤ) : ℚ)
    apply le_cdivI_cast _ _ hSC
    push_cast
    linarith [hp2, hci2]

lemma boxOKI_sound (x y : ℚ) (b : BoxI) (hin : inBoxI x y b)
    (hok : boxOKI b = true) : normSqP (x, y) ≤ 1000 := by
  obtain ⟨h1, h2, h3, h4⟩ := hin
  have hsq2 := sq_upper b.al b.ah (x * ((SC : ℤ) : ℚ)) h1 h2
  have hsq4 := sq_upper b.bl b.bh (y * ((SC : ℤ) : ℚ)) h3 h4
  have hokz : sqHiI b.al b.ah + sqHiI b.bl b.bh ≤ 1000 * SC2 := by
    unfold boxOKI at hok
    exact of_decide_eq_true hok
  have hokq : ((sqHiI b.al b.ah : ℤ) : ℚ) + ((sqHiI b.bl b.bh : ℤ) : ℚ) ≤
      1000 * ((SC2 : ℤ) : ℚ) := by exact_mod_cast hokz
  rw [SC2_cast] at hokq
  have hS := SCQ_pos
  show x * x + y * y ≤ 1000
  have hS2 : (0 : ℚ) < ((SC : ℤ) : ℚ) * ((SC : ℤ) : ℚ) := mul_pos hS hS
  have hfin : (x * x + y * y) * (((SC : ℤ) : ℚ) * ((SC : ℤ) : ℚ)) ≤
      1000 * (((SC : ℤ) : ℚ) * ((SC : ℤ) : ℚ)) := by
    linarith [hsq2, hsq4, hokq]
  exact le_of_mul_le_mul_right hfin hS2

lemma certB_sound (n : ℕ) (b : BoxI) (x y : ℚ) (hin : inBoxI x y b)
    (hc : certB n b = true) :
    ∀ k, 1 ≤ k → k ≤ n → normSqP (orbitR (-0.8) 0.156 x y k) ≤ 1000 := by
  induction n generalizing b x y with
  | zero =>
    intro k h1 h0
    exact absurd (h1.trans h0) (by omega)
  | succ n ih =>
    intro k hk1 hkn
    have hc2 : boxOKI (stepBoxI b) = true ∧ certB n (stepBoxI b) = true := by
      have : certB (n + 1) b = (boxOKI (stepBoxI b) && certB n (stepBoxI b)) := rfl
      rw [this] at hc
      exact Bool.and_eq_true_iff.mp hc
    have hin2 := stepBoxI_sound x y b hin
    obtain ⟨m, rfl⟩ : ∃ m, k = m + 1 := ⟨k - 1, by omega⟩
    rw [orbitR_succ_front]
    rcases Nat.eq_zero_or_pos m with rfl | hm
    · show normSqP (x * x - y * y + (-0.8), x * y + y * x + 0.156) ≤ 1000
      exact boxOKI_sound _ _ _ hin2 hc2.1
    · exact ih (stepBoxI b) _ _ hin2 hc2.2 m hm (by omega)

set_option maxRecDepth 100000 in
lemma certB_center : certB 200 ⟨0, 0, 0, 0⟩ = true := by decide

/-- The exact orbit of the origin stays within the threshold through all 200
iterations, so the loop classifies it as "in set". -/
lemma juliaLoop_center : juliaLoop (-0.8) 0.156 200 0 0 = 1 := by
  apply (juliaLoop_eq_one_iff (-0.8) 0.156 200 0 0).mpr
  apply certB_sound 200 ⟨0, 0, 0, 0⟩ 0 0 ?_ certB_center
  refine ⟨?_, ?_, ?_, ?_⟩ <;> simp
/-! ### Concrete evaluations at the corner of the default plane region -/

lemma julia_point_zero_or_one (w h : ℤ) (xl xr yb yt : ℚ) (i j : ℤ) :
    julia_point w h xl xr yb yt i j = 0 ∨ julia_point w h xl xr yb yt i j = 1 :=
  juliaLoop_zero_or_one (-0.8) 0.156 200 (xmap w xl xr i) (ymap h yb yt j)

lemma xmap3_one : xmap 3 (-1.5) 1.5 1 = 0 := by
  unfold xmap
  norm_num

lemma xmap3_two : xmap 3 (-1.5) 1.5 2 = 1.5 := by
  unfold xmap
  norm_num

lemma corner_orbit3 : 1000 < normSqP (orbitR (-0.8) 0.156 1.5 1.5 3) := by
  norm_num [orbitR, normSqP]

lemma corner_orbit1 : normSqP (orbitR (-0.8) 0.156 1.5 1.5 1) ≤ 1000 := by
  norm_num [orbitR, normSqP]

lemma corner_orbit2 : normSqP (orbitR (-0.8) 0.156 1.5 1.5 2) ≤ 1000 := by
  norm_num [orbitR, normSqP]

/-- The pixel mapped to the exact corner `(1.5, 1.5)` escapes, at step 3. -/
lemma julia_point_corner : julia_point 3 3 (-1.5) 1.5 (-1.5) 1.5 2 2 = 0 := by
  show juliaLoop (-0.8) 0.156 200 (xmap 3 (-1.5) 1.5 2) (ymap 3 (-1.5) 1.5 2) = 0
  rw [show ymap 3 (-1.5) 1.5 2 = xmap 3 (-1.5) 1.5 2 from rfl, xmap3_two]
  exact (juliaLoop_eq_zero_iff (-0.8) 0.156 200 1.5 1.5).mpr
    ⟨3, by omega, by omega, corner_orbit3⟩

lemma julia_escape_corner : julia_escape 3 3 (-1.5) 1.5 (-1.5) 1.5 2 2 = some 3 := by
  show escapeIn (-0.8) 0.156 200 (xmap 3 (-1.5) 1.5 2) (ymap 3 (-1.5) 1.5 2) = some 3
  rw [show ymap 3 (-1.5) 1.5 2 = xmap 3 (-1.5) 1.5 2 from rfl, xmap3_two]
  apply (escapeIn_some_iff (-0.8) 0.156 200 1.5 1.5 3).mpr
  refine ⟨by omega, by omega, corner_orbit3, ?_⟩
  intro m hm1 hm3
  interval_cases m
  · exact corner_orbit1
  · exact corner_orbit2

/-- The center pixel of the 3x3 grid maps to the origin and is in the set. -/
lemma julia_point_center3 : julia_point 3 3 (-1.5) 1.5 (-1.5) 1.5 1 1 = 1 := by
  show juliaLoop (-0.8) 0.156 200 (xmap 3 (-1.5) 1.5 1) (ymap 3 (-1.5) 1.5 1) = 1
  rw [show ymap 3 (-1.5) 1.5 1 = xmap 3 (-1.5) 1.5 1 from rfl, xmap3_one]
  exact juliaLoop_center

lemma ymap_rotate (h : ℤ) (yb : ℚ) (j : ℤ) :
    ymap h yb (-yb) (h - 1 - j) = -(ymap h yb (-yb) j) :=
  xmap_rotate h yb j

/-! ### Claim theorems -/

/-- C1: for every valid grid and pixel, `julia_point` maps the pixel by the
stated linear interpolation and returns 0 exactly when some step among the
first 200 exceeds the threshold, returns 1 exactly when all 200 updates stay
within it, and the instrumented escape index is exactly the first step at
which `ar*ar + ai*ai > 1000` holds, never earlier or later. -/
theorem julia_point_escape_characterization (w h : ℤ) (xl xr yb yt : ℚ) (i j : ℤ)
    (hw : 1 < w) (hh : 1 < h) (hi0 : 0 ≤ i) (hiw : i < w) (hj0 : 0 ≤ j) (hjh : j < h)
    (x y : ℚ)
    (hx : x = (((w - i - 1 : ℤ) : ℚ) * xl + (i : ℚ) * xr) / ((w - 1 : ℤ) : ℚ))
    (hy : y = (((h - j - 1 : ℤ) : ℚ) * yb + (j : ℚ) * yt) / ((h - 1 : ℤ) : ℚ)) :
    (julia_point w h xl xr yb yt i j = 0 ↔
      ∃ k, 1 ≤ k ∧ k ≤ 200 ∧ 1000 < normSqP (orbitR (-0.8) 0.156 x y k)) ∧
    (julia_point w h xl xr yb yt i j = 1 ↔
      ∀ k, 1 ≤ k → k ≤ 200 → normSqP (orbitR (-0.8) 0.156 x y k) ≤ 1000) ∧
    (∀ k, julia_escape w h xl xr yb yt i j = some k ↔
      (1 ≤ k ∧ k ≤ 200 ∧ 1000 < normSqP (orbitR (-0.8) 0.156 x y k) ∧
        ∀ m, 1 ≤ m → m < k → normSqP (orbitR (-0.8) 0.156 x y m) ≤ 1000)) ∧
    (∀ k, julia_escape w h xl xr yb yt i j = some k →
      julia_point w h xl xr yb yt i j = 0) ∧
    (julia_escape w h xl xr yb yt i j = none ↔ julia_point w h xl xr yb yt i j = 1) := by
  subst hx hy
  exact ⟨juliaLoop_eq_zero_iff (-0.8) 0.156 200 _ _,
    juliaLoop_eq_one_iff (-0.8) 0.156 200 _ _,
    fun k => escapeIn_some_iff (-0.8) 0.156 200 _ _ k,
    fun k => escapeIn_some_imp_zero (-0.8) 0.156 200 _ _ k,
    escapeIn_eq_none_iff (-0.8) 0.156 200 _ _⟩

/-- Witness for C1 at the concrete pixel (2,2) of a 3x3 grid on [-1.5,1.5]². -/
theorem julia_point_escape_characterization_witness :
    julia_point 3 3 (-1.5) 1.5 (-1.5) 1.5 2 2 = 0 ↔
      ∃ k, 1 ≤ k ∧ k ≤ 200 ∧ 1000 < normSqP (orbitR (-0.8) 0.156 1.5 1.5 k) :=
  (julia_point_escape_characterization 3 3 (-1.5) 1.5 (-1.5) 1.5 2 2
    (by norm_num) (by norm_num) (by norm_num) (by norm_num) (by norm_num) (by norm_num)
    1.5 1.5 (by push_cast; norm_num) (by push_cast; norm_num)).1

/-- C2: the rendered buffer has length `3*w*h`, and at offset `3*(j*w+i)` the
first two bytes are 255 when the pixel escaped and 0 when it is in the set,
while the third byte is always 255. -/
theorem julia_rgb_pixel_bytes (w h : ℕ) (xl xr yb yt : ℚ) (hw : 1 < w) (hh : 1 < h) :
    (julia_rgb w h xl xr yb yt).length = 3 * w * h ∧
    ∀ i j, i < w → j < h →
      ((julia_rgb w h xl xr yb yt)[3 * (j * w + i)]? =
          some (if julia_point (w : ℤ) (h : ℤ) xl xr yb yt (i : ℤ) (j : ℤ) = 0
            then 255 else 0) ∧
        (julia_rgb w h xl xr yb yt)[3 * (j * w + i) + 1]? =
          some (if julia_point (w : ℤ) (h : ℤ) xl xr yb yt (i : ℤ) (j : ℤ) = 0
            then 255 else 0) ∧
        (julia_rgb w h xl xr yb yt)[3 * (j * w + i) + 2]? = some 255) := by
  refine ⟨julia_rgb_length w h xl xr yb yt, ?_⟩
  intro i j hi hj
  have hval : (255 : ℕ) * (1 - julia_point (w : ℤ) (h : ℤ) xl xr yb yt (i : ℤ) (j : ℤ)) =
      if julia_point (w : ℤ) (h : ℤ) xl xr yb yt (i : ℤ) (j : ℤ) = 0 then 255 else 0 := by
    rcases julia_point_zero_or_one (w : ℤ) (h : ℤ) xl xr yb yt (i : ℤ) (j : ℤ) with hv | hv <;>
      rw [hv] <;> norm_num
  refine ⟨?_, ?_, ?_⟩
  · rw [show 3 * (j * w + i) = (j * w + i) * 3 + 0 by ring]
    rw [julia_rgb_getElem? w h xl xr yb yt i j 0 hi hj (by omega)]
    rw [if_neg (by omega), hval]
  · rw [show 3 * (j * w + i) + 1 = (j * w + i) * 3 + 1 by ring]
    rw [julia_rgb_getElem? w h xl xr yb yt i j 1 hi hj (by omega)]
    rw [if_neg (by omega), hval]
  · rw [show 3 * (j * w + i) + 2 = (j * w + i) * 3 + 2 by ring]
    rw [julia_rgb_getElem? w h xl xr yb yt i j 2 hi hj (by omega)]
    rw [if_pos rfl]

/-- Witness for C2 on a concrete 2x2 grid. -/
theorem julia_rgb_pixel_bytes_witness :
    (julia_rgb 2 2 (-1.5) 1.5 (-1.5) 1.5).length = 3 * 2 * 2 :=
  (julia_rgb_pixel_bytes 2 2 (-1.5) 1.5 (-1.5) 1.5 (by norm_num) (by norm_num)).1

/-- C3: the encoder output is the fixed 12-byte header, then
`{w mod 256, w div 256, h mod 256, h div 256, 24, 0}`, then the pixel bytes
verbatim: `18 + 3*w*h` bytes in total; 30 bytes for a 2x2 image, and header2 =
`{44,1,10,0,24,0}` for a 300x10 image. -/
theorem tga_write_layout (w h : ℕ) (rgb : List ℕ) (hw : w < 65536) (hh : h < 65536)
    (hlen : rgb.length = 3 * w * h) :
    tga_write w h rgb =
      [0, 0, 2, 0, 0, 0, 0, 0, 0, 0, 0, 0] ++
        [w % 256, w / 256, h % 256, h / 256, 24, 0] ++ rgb ∧
    (tga_write w h rgb).length = 18 + 3 * w * h ∧
    (∀ rgb2 : List ℕ, rgb2.length = 3 * 2 * 2 → (tga_write 2 2 rgb2).length = 30) ∧
    (∀ rgb3 : List ℕ, rgb3.length = 3 * 300 * 10 →
      tga_write 300 10 rgb3 =
        [0, 0, 2, 0, 0, 0, 0, 0, 0, 0, 0, 0] ++ [44, 1, 10, 0, 24, 0] ++ rgb3) := by
  have hdw : w / 256 % 256 = w / 256 := by
    apply Nat.mod_eq_of_lt
    omega
  have hdh : h / 256 % 256 = h / 256 := by
    apply Nat.mod_eq_of_lt
    omega
  have htake : rgb.take (3 * w * h) = rgb := List.take_of_length_le (le_of_eq hlen)
  have hmain : tga_write w h rgb =
      [0, 0, 2, 0, 0, 0, 0, 0, 0, 0, 0, 0] ++
        [w % 256, w / 256, h % 256, h / 256, 24, 0] ++ rgb := by
    unfold tga_write
    rw [hdw, hdh, htake]
  refine ⟨hmain, ?_, ?_, ?_⟩
  · rw [hmain]
    simp only [List.length_append, List.length_cons, List.length_nil, hlen]
  · intro rgb2 hlen2
    unfold tga_write
    simp [List.length_take, hlen2]
  · intro rgb3 hlen3
    unfold tga_write
    rw [List.take_of_length_le (le_of_eq hlen3)]

/-- Witness for C3 on a concrete 2x2 image. -/
theorem tga_write_layout_witness :
    (tga_write 2 2 (List.replicate 12 0)).length = 18 + 3 * 2 * 2 :=
  (tga_write_layout 2 2 (List.replicate 12 0) (by norm_num) (by norm_num) (by simp)).2.1

/-- C4: under the program's exact interpolation arithmetic, pixel (0,0) maps to
`(xl, yb)` and pixel (w-1, h-1) maps to `(xr, yt)`, and `julia_point` consumes
exactly these mapped coordinates. -/
theorem corner_mapping (w h : ℤ) (xl xr yb yt : ℚ) (hw : 1 < w) (hh : 1 < h) :
    xmap w xl xr 0 = xl ∧ ymap h yb yt 0 = yb ∧
    xmap w xl xr (w - 1) = xr ∧ ymap h yb yt (h - 1) = yt ∧
    (∀ i j : ℤ, julia_point w h xl xr yb yt i j =
      juliaLoop (-0.8) 0.156 200 (xmap w xl xr i) (ymap h yb yt j)) :=
  ⟨xmap_zero w hw xl xr, ymap_zero h hh yb yt, xmap_last w hw xl xr,
    ymap_last h hh yb yt, fun _ _ => rfl⟩

/-- Witness for C4 at a concrete 3x3 grid. -/
theorem corner_mapping_witness : xmap 3 (-1.5) 1.5 0 = -1.5 :=
  (corner_mapping 3 3 (-1.5) 1.5 (-1.5) 1.5 (by norm_num) (by norm_num)).1

/-- C5: the offset map is injective on the grid, all three byte positions of a
pixel lie inside the buffer, and every buffer position is covered by exactly
one (pixel, channel) pair. -/
theorem offset_injective_cover (w h : ℕ) (hw : 1 ≤ w) (hh : 1 ≤ h) :
    (∀ i j i2 j2, i < w → j < h → i2 < w → j2 < h →
      offsetK w i j = offsetK w i2 j2 → i = i2 ∧ j = j2) ∧
    (∀ i j c, i < w → j < h → c < 3 → offsetK w i j + c < 3 * w * h) ∧
    (∀ m, m < 3 * w * h → ∃! t : ℕ × ℕ × ℕ, t.1 < w ∧ t.2.1 < h ∧ t.2.2 < 3 ∧
      m = offsetK w t.1 t.2.1 + t.2.2) :=
  ⟨fun i j i2 j2 hi _ hi2 _ heq => offsetK_inj w i j i2 j2 hi hi2 heq,
    fun i j c hi hj hc => offsetK_add_lt w h i j c hi hj hc,
    fun m hm => offsetK_surj_unique w h m hm⟩

/-- Witness for C5 at a concrete 2x2 grid and pixel (1,1), channel 2. -/
theorem offset_injective_cover_witness :
    offsetK 2 1 1 + 2 < 3 * 2 * 2 :=
  (offset_injective_cover 2 2 (by norm_num) (by norm_num)).2.1 1 1 2
    (by norm_num) (by norm_num) (by norm_num)

/-- C6: the rendered buffer is a pure function of the six inputs, and filling
the buffer with the pixel tasks in any order that visits every pixel exactly
once yields the same buffer as the sequential renderer; in particular any two
such schedules agree byte for byte. -/
theorem renderer_order_independent (w h : ℕ) (xl xr yb yt : ℚ) :
    julia_rgb w h xl xr yb yt = julia_rgb w h xl xr yb yt ∧
    (∀ order : List (ℕ × ℕ), order.Perm (allPixels w h) →
      fillBuf w h xl xr yb yt order = julia_rgb w h xl xr yb yt) ∧
    (∀ order1 order2 : List (ℕ × ℕ), order1.Perm (allPixels w h) →
      order2.Perm (allPixels w h) →
      fillBuf w h xl xr yb yt order1 = fillBuf w h xl xr yb yt order2) :=
  ⟨rfl, fun order hp => fillBuf_perm w h xl xr yb yt order hp,
    fun o1 o2 h1 h2 => (fillBuf_perm w h xl xr yb yt o1 h1).trans
      (fillBuf_perm w h xl xr yb yt o2 h2).symm⟩

/-- C7: the evaluator always terminates with value 0 or 1, executing at most
200 loop iterations. -/
theorem julia_point_terminates (w h : ℤ) (xl xr yb yt : ℚ) (i j : ℤ)
    (hw : 1 < w) (hh : 1 < h) :
    julia_steps w h xl xr yb yt i j ≤ 200 ∧
    (julia_point w h xl xr yb yt i j = 0 ∨ julia_point w h xl xr yb yt i j = 1) := by
  constructor
  · unfold julia_steps
    split
    case h_1 k heq =>
      exact ((escapeIn_some_iff (-0.8) 0.156 200 _ _ k).mp heq).2.1
    case h_2 heq => exact le_refl 200
  · exact julia_point_zero_or_one w h xl xr yb yt i j

/-- Witness for C7 at a concrete input. -/
theorem julia_point_terminates_witness :
    julia_steps 3 3 (-1.5) 1.5 (-1.5) 1.5 0 0 ≤ 200 :=
  (julia_point_terminates 3 3 (-1.5) 1.5 (-1.5) 1.5 0 0 (by norm_num) (by norm_num)).1

/-- C8: on the 3x3 grid over [-1.5,1.5]², the center pixel maps exactly to the
origin and is classified "in set" (all 200 exact iterations stay within the
threshold, certified by interval arithmetic), while the pixel mapped to the
corner `(1.5, 1.5)` is classified "escaped", at iteration 3. -/
theorem center_in_set_corner_escapes :
    julia_point 3 3 (-1.5) 1.5 (-1.5) 1.5 1 1 = 1 ∧
    xmap 3 (-1.5) 1.5 1 = 0 ∧ ymap 3 (-1.5) 1.5 1 = 0 ∧
    julia_point 3 3 (-1.5) 1.5 (-1.5) 1.5 2 2 = 0 ∧
    xmap 3 (-1.5) 1.5 2 = 1.5 ∧ ymap 3 (-1.5) 1.5 2 = 1.5 ∧
    julia_escape 3 3 (-1.5) 1.5 (-1.5) 1.5 2 2 = some 3 :=
  ⟨julia_point_center3, xmap3_one, xmap3_one, julia_point_corner, xmap3_two,
    xmap3_two, julia_escape_corner⟩

/-- C10: with plane bounds symmetric about the origin, the evaluator is
invariant under the 180-degree rotation `(i, j) ↦ (w-1-i, h-1-j)` of the grid. -/
theorem julia_point_rotation (w h : ℤ) (xl xr yb yt : ℚ) (i j : ℤ)
    (hw : 1 < w) (hh : 1 < h) (hxr : xr = -xl) (hyt : yt = -yb)
    (hi0 : 0 ≤ i) (hiw : i < w) (hj0 : 0 ≤ j) (hjh : j < h) :
    julia_point w h xl xr yb yt i j =
      julia_point w h xl xr yb yt (w - 1 - i) (h - 1 - j) := by
  subst hxr hyt
  show juliaLoop (-0.8) 0.156 200 (xmap w xl (-xl) i) (ymap h yb (-yb) j) =
    juliaLoop (-0.8) 0.156 200 (xmap w xl (-xl) (w - 1 - i)) (ymap h yb (-yb) (h - 1 - j))
  rw [xmap_rotate, ymap_rotate]
  exact (juliaLoop_neg (-0.8) 0.156 199 (xmap w xl (-xl) i) (ymap h yb (-yb) j)).symm

/-- Witness for C10 at the concrete pixel (0,0) of a 3x3 grid. -/
theorem julia_point_rotation_witness :
    julia_point 3 3 (-1.5) 1.5 (-1.5) 1.5 0 0 =
      julia_point 3 3 (-1.5) 1.5 (-1.5) 1.5 (3 - 1 - 0) (3 - 1 - 0) :=
  julia_point_rotation 3 3 (-1.5) 1.5 (-1.5) 1.5 0 0 (by norm_num) (by norm_num)
    (by norm_num) (by norm_num) (by norm_num) (by norm_num) (by norm_num) (by norm_num)

end Julia
